import Mathlib

/-!
Verification of `pykeen.nn.functional` (interaction functions for
knowledge-graph embedding models): DistMult, ComplEx and ConvE scoring,
together with the axis-normalization and broadcasting logic and the
CUDA-driver-error translation wrapper.

Tensors are embedded as shape data together with total index functions
into `ℚ` (the claims under study are exact algebraic identities, so exact
rational arithmetic models floating-point evaluation of the same
expressions).  Entries outside the recorded shape are phantom values; all
statements about tensor contents quantify over in-range indices where it
matters.
-/

namespace PyKEEN

/-- A rank-3 tensor of shape `(b, k, d)`: the canonical layout
`(batch, num_candidates, dim)` produced by axis normalization. -/
structure Tensor3 where
  b : ℕ
  k : ℕ
  d : ℕ
  data : ℕ → ℕ → ℕ → ℚ

/-- A rank-4 score tensor of shape `(b, nh, nr, nt)` =
`(batch, num_heads, num_relations, num_tails)`. -/
structure Tensor4 where
  b : ℕ
  nh : ℕ
  nr : ℕ
  nt : ℕ
  data : ℕ → ℕ → ℕ → ℕ → ℚ

/-- Elementwise sum of two score tensors (Python `+` on same-shaped
tensors; the shape is taken from the first operand). -/
def Tensor4.add (x y : Tensor4) : Tensor4 :=
  ⟨x.b, x.nh, x.nr, x.nt, fun i j k l => x.data i j k l + y.data i j k l⟩

/-- Elementwise negation of a score tensor. -/
def Tensor4.neg (x : Tensor4) : Tensor4 :=
  ⟨x.b, x.nh, x.nr, x.nt, fun i j k l => -(x.data i j k l)⟩

/-- An embedding batch as accepted by `distmult_interaction` and
`complex_interaction`: either rank 2 `(batch, dim)` or rank 3
`(batch, k, dim)` with a candidate axis `k`. -/
inductive EmbTensor where
  | rank2 (b d : ℕ) (data : ℕ → ℕ → ℚ)
  | rank3 (b k d : ℕ) (data : ℕ → ℕ → ℕ → ℚ)

/-- Leading (batch) dimension, `x.shape[0]`. -/
def EmbTensor.batch : EmbTensor → ℕ
  | rank2 b _ _ => b
  | rank3 b _ _ _ => b

/-- Size of the candidate axis; `1` when the tensor lacks one. -/
def EmbTensor.cand : EmbTensor → ℕ
  | rank2 _ _ _ => 1
  | rank3 _ k _ _ => k

/-- Trailing (embedding) dimension. -/
def EmbTensor.dim : EmbTensor → ℕ
  | rank2 _ d _ => d
  | rank3 _ _ d _ => d

/-- Uniform entry access `(batch index, candidate index, dim index)`;
a rank-2 tensor ignores the candidate index. -/
def EmbTensor.entry : EmbTensor → ℕ → ℕ → ℕ → ℚ
  | rank2 _ _ f => fun i _ l => f i l
  | rank3 _ _ _ f => fun i j l => f i j l

/-- Modelled from the spec: the axis-normalize utility
`normalize_for_einsum` of `pykeen.utils` (the module is not among the
sources; only its interface is specified).  Given a tensor of rank 2
`(batch, dim)` or rank 3 `(batch, k, dim)` and the canonical
`batch_size`, it assigns an axis-term string (`"bd"` for a plain
per-batch embedding, `"b" ++ symbol ++ "d"` when the tensor carries a
candidate axis) and rewrites the tensor into the canonical rank-3
layout `(batch_size, k, dim)` with `k = 1` for a plain per-batch
embedding, broadcasting a leading dimension of `1` to `batch_size` by
repetition. -/
def normalize_for_einsum (x : EmbTensor) (batch_size : ℕ) (symbol : Char) :
    String × Tensor3 :=
  match x with
  | .rank2 b d f =>
      (String.mk ['b', 'd'], ⟨batch_size, 1, d, fun i _ l => f (i % b) l⟩)
  | .rank3 b k d f =>
      (String.mk ['b', symbol, 'd'], ⟨batch_size, k, d, fun i j l => f (i % b) j l⟩)

/-- Embedding of `_normalize_terms_for_einsum`: compute
`batch_size = max(h.shape[0], r.shape[0], t.shape[0])` and normalize
each of the three tensors with its symbol. -/
def _normalize_terms_for_einsum (h r t : EmbTensor) :
    Tensor3 × String × Tensor3 × String × Tensor3 × String :=
  let batch_size := max (max h.batch r.batch) t.batch
  let hn := normalize_for_einsum h batch_size 'h'
  let rn := normalize_for_einsum r batch_size 'r'
  let tn := normalize_for_einsum t batch_size 't'
  (hn.2, hn.1, rn.2, rn.1, tn.2, tn.1)

/-- Semantic model of `torch.einsum` for the contraction pattern
`bhd,brd,btd->bhrt` used by DistMult and ComplEx on the normalized
rank-3 operands: contract the trailing dimension of the three operands
against each other, keeping batch and the three candidate axes. -/
def einsum_bhrt (hn rn tn : Tensor3) : Tensor4 :=
  ⟨hn.b, hn.k, rn.k, tn.k, fun i j k l =>
    (Finset.range hn.d).sum fun dd => hn.data i j dd * rn.data i k dd * tn.data i l dd⟩

/-- Embedding of `distmult_interaction`: normalize the three terms,
then one generalized trilinear contraction. -/
def distmult_interaction (h r t : EmbTensor) : Tensor4 :=
  let n := _normalize_terms_for_einsum h r t
  einsum_bhrt n.1 n.2.2.1 n.2.2.2.2.1

/-- Modelled from the spec: the complex-split utility `split_complex`
of `pykeen.utils` (not among the sources): split the trailing dimension
into a real half (first `d / 2` entries) and an imaginary half (last
`d / 2` entries). -/
def split_complex (x : Tensor3) : Tensor3 × Tensor3 :=
  (⟨x.b, x.k, x.d / 2, x.data⟩,
   ⟨x.b, x.k, x.d / 2, fun i j l => x.data i j (x.d / 2 + l)⟩)

/-- The `n`-th of the four real trilinear contractions summed by
`complex_interaction`, in the order of the source's combination list:
`(re,re,re)`, `(re,im,im)`, `(im,re,im)`, `(im,im,re)`. -/
def complex_component (h r t : EmbTensor) (n : ℕ) : Tensor4 :=
  let q := _normalize_terms_for_einsum h r t
  let hs := split_complex q.1
  let rs := split_complex q.2.2.1
  let ts := split_complex q.2.2.2.2.1
  match n with
  | 0 => einsum_bhrt hs.1 rs.1 ts.1
  | 1 => einsum_bhrt hs.1 rs.2 ts.2
  | 2 => einsum_bhrt hs.2 rs.1 ts.2
  | _ => einsum_bhrt hs.2 rs.2 ts.1

/-- Embedding of `complex_interaction` as the source writes it: the
four trilinear contractions over the combination list
`(re,re,re), (re,im,im), (im,re,im), (im,im,re)` are summed, all with
positive sign (the source's `sum(...)` applies no sign factors). -/
def complex_interaction (h r t : EmbTensor) : Tensor4 :=
  Tensor4.add
    (Tensor4.add
      (Tensor4.add (complex_component h r t 0) (complex_component h r t 1))
      (complex_component h r t 2))
    (complex_component h r t 3)

/-- The ComplEx score as the SPEC states it (for comparison with
`complex_interaction`): the same four contractions combined with signs
`(+, +, +, -)`, i.e. the algebraic expansion of the real part of the
Hermitian product of h, r and the conjugate of t. -/
def complex_interaction_spec (h r t : EmbTensor) : Tensor4 :=
  Tensor4.add
    (Tensor4.add
      (Tensor4.add (complex_component h r t 0) (complex_component h r t 1))
      (complex_component h r t 2))
    (Tensor4.neg (complex_component h r t 3))

/-- Scale every entry of an embedding batch by `c`. -/
def EmbTensor.smul (c : ℚ) : EmbTensor → EmbTensor
  | .rank2 b d f => .rank2 b d (fun i l => c * f i l)
  | .rank3 b k d f => .rank3 b k d (fun i j l => c * f i j l)

/-- Negate the imaginary half (the entries of the trailing dimension at
positions `≥ dim / 2`) of an embedding batch, keeping the real half. -/
def EmbTensor.negImag : EmbTensor → EmbTensor
  | .rank2 b d f => .rank2 b d (fun i l => if d / 2 ≤ l then -(f i l) else f i l)
  | .rank3 b k d f => .rank3 b k d (fun i j l => if d / 2 ≤ l then -(f i j l) else f i j l)

/-- Keep only the real half of an embedding batch: the same data with
the trailing dimension truncated to `dim / 2`. -/
def EmbTensor.realHalf : EmbTensor → EmbTensor
  | .rank2 b d f => .rank2 b (d / 2) f
  | .rank3 b k d f => .rank3 b k (d / 2) f

/-- The imaginary half (entries `dim / 2 ≤ l < dim`) of the embedding
batch is all zero, on in-range indices. -/
def EmbTensor.zeroImag (x : EmbTensor) : Prop :=
  ∀ i j l, i < x.batch → j < x.cand → x.dim / 2 ≤ l → l < x.dim → x.entry i j l = 0

/-- A tensor in flat (row-major, contiguous) layout: a shape together
with the flat data.  This is the representation threaded through ConvE's
convolutional pipeline, where `torch.view` only relabels the shape. -/
structure FlatTensor where
  shape : List ℕ
  data : ℕ → ℚ

/-- Number of elements, `x.numel()`. -/
def FlatTensor.numel (x : FlatTensor) : ℕ := x.shape.prod

/-- `x.view(s)` on a contiguous tensor: same flat data, new shape. -/
def FlatTensor.view (x : FlatTensor) (s : List ℕ) : FlatTensor := ⟨s, x.data⟩

/-- `x.view(-1, *rest)`: the leading dimension is inferred from the
element count. -/
def FlatTensor.viewInferred (x : FlatTensor) (rest : List ℕ) : FlatTensor :=
  ⟨x.numel / rest.prod :: rest, x.data⟩

/-- `torch.cat([x, y], dim=2)` for two rank-4 tensors (shape taken from
the operands; ConvE stacks the head image on top of the relation image
along the height axis). -/
def cat4dim2 (x y : FlatTensor) : FlatTensor :=
  match x.shape, y.shape with
  | [n, c, hh, w], [_, _, h2, _] =>
    ⟨[n, c, hh + h2, w], fun idx =>
      let wi := idx % w
      let hi := idx / w % (hh + h2)
      let pre := idx / (w * (hh + h2))
      if hi < hh then x.data ((pre * hh + hi) * w + wi)
      else y.data ((pre * h2 + (hi - hh)) * w + wi)⟩
  | _, _ => ⟨[], fun _ => 0⟩

/-- Apply an optional layer (`None` batch-norm layers are skipped). -/
def applyOpt (f : Option (FlatTensor → FlatTensor)) (x : FlatTensor) : FlatTensor :=
  match f with
  | none => x
  | some g => g x

/-- `h.unsqueeze(dim=2).repeat(1 if h.shape[0] == batch_size else
batch_size, 1, num_relations, 1)`: the head batch `(b, nh, d)` is given
a relation axis and tiled across it (and across the batch when its
leading dimension is not already `batch_size`), in flat layout
`(b, nh, num_relations, d)`. -/
def conveExpandHead (h : Tensor3) (batch_size num_relations : ℕ) : FlatTensor :=
  ⟨[(if h.b = batch_size then 1 else batch_size) * h.b, h.k, num_relations, h.d],
   fun idx =>
    let l := idx % h.d
    let j := idx / (h.d * num_relations) % h.k
    let i := idx / (h.d * num_relations * h.k)
    h.data (i % h.b) j l⟩

/-- `r.unsqueeze(dim=1).repeat(1 if r.shape[0] == batch_size else
batch_size, num_heads, 1, 1)`: the relation batch `(b, nr, d)` is given
a head axis and tiled across it, in flat layout `(b, num_heads, nr, d)`. -/
def conveExpandRel (r : Tensor3) (batch_size num_heads : ℕ) : FlatTensor :=
  ⟨[(if r.b = batch_size then 1 else batch_size) * r.b, num_heads, r.k, r.d],
   fun idx =>
    let l := idx % r.d
    let kk := idx / r.d % r.k
    let i := idx / (r.d * r.k * num_heads)
    r.data (i % r.b) kk l⟩

/-- Embedding of `conve_interaction`.  The neural sub-layers
(batch-norms, dropouts, convolution, activation, linear projection) are
externally owned collaborators with a tensor-in/tensor-out contract and
are passed as parameters, exactly as the Python signature receives the
module objects; the optional batch-norms are `Option`-valued.  The final
steps — reshape of the feature map to
`(batch, num_heads, num_relations, 1, embedding_dim)`, batched matrix
product against `t.view(t.shape[0], 1, 1, num_tails,
embedding_dim).transpose(-1, -2)` with the squeeze of the singleton
axis, and the bias `t_bias.view(t.shape[0], 1, 1, num_tails)` broadcast
over batch, heads and relations — are written out index-wise. -/
def conve_interaction (h r t : Tensor3) (t_bias : FlatTensor)
    (input_channels embedding_height embedding_width : ℕ)
    (num_in_features embedding_dim : ℕ)
    (bn0 bn1 bn2 : Option (FlatTensor → FlatTensor))
    (inp_drop feature_map_drop hidden_drop : FlatTensor → FlatTensor)
    (conv1 : FlatTensor → FlatTensor)
    (activation : FlatTensor → FlatTensor)
    (fc : FlatTensor → FlatTensor) : Tensor4 :=
  let batch_size := max (max h.b r.b) t.b
  let num_heads := h.k
  let num_relations := r.k
  let num_tails := t.k
  let hrep := conveExpandHead h batch_size num_relations
  let rrep := conveExpandRel r batch_size num_heads
  let x0 := cat4dim2
    (hrep.viewInferred [input_channels, embedding_height, embedding_width])
    (rrep.viewInferred [input_channels, embedding_height, embedding_width])
  let x1 := applyOpt bn0 x0
  let x2 := inp_drop x1
  let x3 := conv1 x2
  let x4 := applyOpt bn1 x3
  let x5 := activation x4
  let x6 := feature_map_drop x5
  let x7 := x6.viewInferred [num_in_features]
  let x8 := fc x7
  let x9 := hidden_drop x8
  let x10 := applyOpt bn2 x9
  let x11 := activation x10
  let x12 := x11.view [batch_size, num_heads, num_relations, 1, embedding_dim]
  ⟨batch_size, num_heads, num_relations, num_tails, fun i j k l =>
    (Finset.range embedding_dim).sum (fun dd =>
      x12.data (((i * num_heads + j) * num_relations + k) * embedding_dim + dd)
        * t.data (i % t.b) l dd)
    + t_bias.data ((i % t.b) * num_tails + l)⟩

/-- A Python exception: either a `RuntimeError` (with message and an
optional `__cause__` chain) or an exception of any other type. -/
inductive PyException where
  | runtimeError (msg : String) (cause : Option PyException)
  | otherException (typeName msg : String)

/-- Whether an exception is (an instance of) `RuntimeError` — the only
kind the `except RuntimeError` clause of `_add_cuda_warning` catches. -/
def PyException.isRuntimeError : PyException → Bool
  | .runtimeError _ _ => true
  | .otherException _ _ => false

/-- The diagnostic message of the higher-level error raised by
`_add_cuda_warning` on a recognized driver fault. -/
def cudaWarningMessage : String :=
  "\nThis code crash might have been caused by a CUDA bug, see " ++
  "https://github.com/allenai/allennlp/issues/2888, " ++
  "which causes the code to crash during evaluation mode.\n" ++
  "To avoid this error, the batch size has to be reduced."

/-- Embedding of the `wrapped` closure produced by the decorator
`_add_cuda_warning`.  The classifier `is_cudnn_error` lives in
`pykeen.utils` (outside the sources) and is therefore a parameter.
`func` is the oracle of outcomes of successive invocations of the
wrapped computation (`func n` is what the `(n+1)`-th invocation would
do); the second component of the result counts how many times the
computation was invoked.  The body performs exactly one invocation:
on success its value is returned; a `RuntimeError` not recognized by
the classifier is re-raised unchanged; a recognized one is re-raised as
the higher-level diagnostic `RuntimeError` with the original attached
as cause; any non-`RuntimeError` exception is not caught at all. -/
def add_cuda_warning (is_cudnn_error : PyException → Bool)
    (func : ℕ → Except PyException α) : Except PyException α × ℕ :=
  match func 0 with
  | .ok v => (.ok v, 1)
  | .error e =>
    match e with
    | .runtimeError m c =>
      if is_cudnn_error (.runtimeError m c) = false then
        (.error (.runtimeError m c), 1)
      else
        (.error (.runtimeError cudaWarningMessage (some (.runtimeError m c))), 1)
    | .otherException n m => (.error (.otherException n m), 1)

/-- Shorthand: the normalized rank-3 form of `x` inside a call with the
three arguments `h`, `r`, `t` (batch size is the max of the three
leading dimensions, as `_normalize_terms_for_einsum` computes it). -/
def normalizedIn (x h r t : EmbTensor) (symbol : Char) : Tensor3 :=
  (normalize_for_einsum x (max (max h.batch r.batch) t.batch) symbol).2

/-- C2: for every batch index `i`, head candidate `j`, relation
candidate `k` and tail candidate `l`, `distmult_interaction` returns
the sum over the embedding dimension `d` of
`h[i,j,d] * r[i,k,d] * t[i,l,d]` (on the axis-normalized tensors), with
no nonlinearity; and for `h`, `r`, `t` each of shape `(2, 4)` filled
with ones, every output entry equals `4`. -/
theorem distmult_trilinear_sum_and_all_ones :
    (∀ h r t : EmbTensor, ∀ i j k l : ℕ,
      (distmult_interaction h r t).data i j k l =
        (Finset.range h.dim).sum (fun dd =>
          (normalizedIn h h r t 'h').data i j dd *
          (normalizedIn r h r t 'r').data i k dd *
          (normalizedIn t h r t 't').data i l dd))
    ∧ (∀ i j k l : ℕ,
      (distmult_interaction (.rank2 2 4 fun _ _ => 1) (.rank2 2 4 fun _ _ => 1)
        (.rank2 2 4 fun _ _ => 1)).data i j k l = 4) := by
  constructor
  · intro h r t i j k l
    cases h <;> cases r <;> cases t <;> rfl
  · intro i j k l
    simp only [distmult_interaction, _normalize_terms_for_einsum, normalize_for_einsum,
      einsum_bhrt, EmbTensor.batch]
    norm_num [Finset.sum_range_succ]

/-- C6: `distmult_interaction` is multilinear — scaling any single one
of the three arguments by a scalar `c` multiplies every entry of the
score tensor by `c` (and leaves the output shape unchanged). -/
theorem distmult_multilinear (c : ℚ) (h r t : EmbTensor) (i j k l : ℕ) :
    ((distmult_interaction (h.smul c) r t).data i j k l
        = c * (distmult_interaction h r t).data i j k l)
    ∧ ((distmult_interaction h (r.smul c) t).data i j k l
        = c * (distmult_interaction h r t).data i j k l)
    ∧ ((distmult_interaction h r (t.smul c)).data i j k l
        = c * (distmult_interaction h r t).data i j k l)
    ∧ (distmult_interaction (h.smul c) r t).b = (distmult_interaction h r t).b
    ∧ (distmult_interaction h (r.smul c) t).nh = (distmult_interaction h r t).nh
    ∧ (distmult_interaction h r (t.smul c)).nt = (distmult_interaction h r t).nt := by
  refine ⟨?_, ?_, ?_, ?_, ?_, ?_⟩ <;>
    cases h <;> cases r <;> cases t <;>
    simp only [distmult_interaction, _normalize_terms_for_einsum, normalize_for_einsum,
      einsum_bhrt, EmbTensor.smul, EmbTensor.batch] <;>
    rw [Finset.mul_sum] <;>
    exact Finset.sum_congr rfl fun x hx => by ring

/-- The four shape fields of a DistMult score: batch is the max of the
three leading dimensions, the candidate axes come from the inputs
(`1` for a rank-2 input). -/
theorem distmult_interaction_shape (h r t : EmbTensor) :
    (distmult_interaction h r t).b = max (max h.batch r.batch) t.batch
    ∧ (distmult_interaction h r t).nh = h.cand
    ∧ (distmult_interaction h r t).nr = r.cand
    ∧ (distmult_interaction h r t).nt = t.cand := by
  cases h <;> cases r <;> cases t <;> exact ⟨rfl, rfl, rfl, rfl⟩

/-- The four shape fields of a ComplEx score coincide with DistMult's. -/
theorem complex_interaction_shape (h r t : EmbTensor) :
    (complex_interaction h r t).b = max (max h.batch r.batch) t.batch
    ∧ (complex_interaction h r t).nh = h.cand
    ∧ (complex_interaction h r t).nr = r.cand
    ∧ (complex_interaction h r t).nt = t.cand := by
  cases h <;> cases r <;> cases t <;> exact ⟨rfl, rfl, rfl, rfl⟩

/-- C3: for every valid shape combination (each leading dimension equal
to the common batch size `B` or to `1`, with at least one equal to `B`),
both `distmult_interaction` and `complex_interaction` produce a score of
shape exactly `(B, num_heads, num_relations, num_tails)`, where each
candidate dimension is `1` whenever the corresponding input lacked a
candidate axis (`EmbTensor.cand` of a rank-2 input is `1` by
definition). -/
theorem interaction_output_shape (h r t : EmbTensor) (B : ℕ) (hB : 0 < B)
    (hh : h.batch = B ∨ h.batch = 1) (hr : r.batch = B ∨ r.batch = 1)
    (ht : t.batch = B ∨ t.batch = 1)
    (hone : h.batch = B ∨ r.batch = B ∨ t.batch = B) :
    (distmult_interaction h r t).b = B
    ∧ (distmult_interaction h r t).nh = h.cand
    ∧ (distmult_interaction h r t).nr = r.cand
    ∧ (distmult_interaction h r t).nt = t.cand
    ∧ (complex_interaction h r t).b = B
    ∧ (complex_interaction h r t).nh = h.cand
    ∧ (complex_interaction h r t).nr = r.cand
    ∧ (complex_interaction h r t).nt = t.cand := by
  have hmax : max (max h.batch r.batch) t.batch = B := by omega
  obtain ⟨d1, d2, d3, d4⟩ := distmult_interaction_shape h r t
  obtain ⟨c1, c2, c3, c4⟩ := complex_interaction_shape h r t
  exact ⟨hmax ▸ d1, d2, d3, d4, hmax ▸ c1, c2, c3, c4⟩

/-- Witness for C3, at `h` of shape `(3, 4)` (no candidate axis),
`r` of shape `(3, 5, 4)` and `t` of shape `(1, 7, 4)` with batch `3`. -/
theorem interaction_output_shape_witness :
    (distmult_interaction (.rank2 3 4 fun _ _ => 1) (.rank3 3 5 4 fun _ _ _ => 1)
        (.rank3 1 7 4 fun _ _ _ => 1)).b = 3
    ∧ (distmult_interaction (.rank2 3 4 fun _ _ => 1) (.rank3 3 5 4 fun _ _ _ => 1)
        (.rank3 1 7 4 fun _ _ _ => 1)).nh = 1
    ∧ (complex_interaction (.rank2 3 4 fun _ _ => 1) (.rank3 3 5 4 fun _ _ _ => 1)
        (.rank3 1 7 4 fun _ _ _ => 1)).nt = 7 := by
  obtain ⟨p1, p2, _, _, _, _, _, p8⟩ :=
    interaction_output_shape (.rank2 3 4 fun _ _ => 1) (.rank3 3 5 4 fun _ _ _ => 1)
      (.rank3 1 7 4 fun _ _ _ => 1) 3 (by norm_num)
      (Or.inl rfl) (Or.inl rfl) (Or.inr rfl) (Or.inl rfl)
  exact ⟨p1, p2, p8⟩

/-- C8: when `h` has leading dimension `1` and `r`, `t` have leading
dimension `B > 1`, the score's batch dimension is `B` and the head
contribution is the same in every batch slice: the normalized head
tensor repeats its row `0`, and each score entry contracts the head
embedding at batch index `0`. -/
theorem distmult_broadcast_head (h r t : EmbTensor) (B : ℕ) (hb : h.batch = 1)
    (hrB : r.batch = B) (htB : t.batch = B) (hB : 1 < B) :
    (distmult_interaction h r t).b = B
    ∧ (∀ i j dd, (normalizedIn h h r t 'h').data i j dd
        = (normalizedIn h h r t 'h').data 0 j dd)
    ∧ (∀ i j k l, (distmult_interaction h r t).data i j k l
        = (Finset.range h.dim).sum fun dd =>
            (normalizedIn h h r t 'h').data 0 j dd *
            (normalizedIn r h r t 'r').data i k dd *
            (normalizedIn t h r t 't').data i l dd) := by
  refine ⟨?_, ?_, ?_⟩
  · have hs := (distmult_interaction_shape h r t).1
    rw [hs, hb, hrB, htB]
    omega
  · intro i j dd
    cases h <;> simp_all [normalizedIn, normalize_for_einsum, EmbTensor.batch, Nat.mod_one]
  · intro i j k l
    cases h <;> cases r <;> cases t <;>
      simp_all [distmult_interaction, _normalize_terms_for_einsum, normalize_for_einsum,
        einsum_bhrt, normalizedIn, EmbTensor.batch, EmbTensor.dim, Nat.mod_one]

/-- Normalization only remaps the batch axis: the normalized data at
`(i, j, l)` is the source entry at `(i % batch, j, l)`. -/
theorem normalize_for_einsum_data (x : EmbTensor) (B : ℕ) (s : Char) (i j l : ℕ) :
    (normalize_for_einsum x B s).2.data i j l = x.entry (i % x.batch) j l := by
  cases x <;> rfl

/-- The normalized tensor keeps the source's trailing dimension. -/
theorem normalize_for_einsum_d (x : EmbTensor) (B : ℕ) (s : Char) :
    (normalize_for_einsum x B s).2.d = x.dim := by
  cases x <;> rfl

/-- `realHalf` keeps the leading dimension. -/
theorem realHalf_batch (x : EmbTensor) : x.realHalf.batch = x.batch := by
  cases x <;> rfl

/-- `realHalf` keeps the candidate axis. -/
theorem realHalf_cand (x : EmbTensor) : x.realHalf.cand = x.cand := by
  cases x <;> rfl

/-- `realHalf` halves the trailing dimension. -/
theorem realHalf_dim (x : EmbTensor) : x.realHalf.dim = x.dim / 2 := by
  cases x <;> rfl

/-- `realHalf` keeps the data function. -/
theorem realHalf_entry (x : EmbTensor) (i j l : ℕ) :
    x.realHalf.entry i j l = x.entry i j l := by
  cases x <;> rfl

/-- `negImag` keeps the leading dimension. -/
theorem negImag_batch (x : EmbTensor) : x.negImag.batch = x.batch := by
  cases x <;> rfl

/-- `negImag` keeps the trailing dimension. -/
theorem negImag_dim (x : EmbTensor) : x.negImag.dim = x.dim := by
  cases x <;> rfl

/-- Entry of `negImag`: negated on the imaginary half, unchanged on the
real half. -/
theorem negImag_entry (x : EmbTensor) (i j l : ℕ) :
    x.negImag.entry i j l
      = if x.dim / 2 ≤ l then -(x.entry i j l) else x.entry i j l := by
  cases x <;> rfl

/-- Index-wise formula of the DistMult score in terms of the original
entries. -/
theorem distmult_interaction_data (h r t : EmbTensor) (i j k l : ℕ) :
    (distmult_interaction h r t).data i j k l
      = (Finset.range h.dim).sum fun dd =>
          h.entry (i % h.batch) j dd * r.entry (i % r.batch) k dd
            * t.entry (i % t.batch) l dd := by
  cases h <;> cases r <;> cases t <;> rfl

/-- Index-wise formula of the first component `(re,re,re)`. -/
theorem complex_component_zero_data (h r t : EmbTensor) (i j k l : ℕ) :
    (complex_component h r t 0).data i j k l
      = (Finset.range (h.dim / 2)).sum fun dd =>
          h.entry (i % h.batch) j dd * r.entry (i % r.batch) k dd
            * t.entry (i % t.batch) l dd := by
  cases h <;> cases r <;> cases t <;> rfl

/-- Index-wise formula of the second component `(re,im,im)`. -/
theorem complex_component_one_data (h r t : EmbTensor) (i j k l : ℕ) :
    (complex_component h r t 1).data i j k l
      = (Finset.range (h.dim / 2)).sum fun dd =>
          h.entry (i % h.batch) j dd * r.entry (i % r.batch) k (r.dim / 2 + dd)
            * t.entry (i % t.batch) l (t.dim / 2 + dd) := by
  cases h <;> cases r <;> cases t <;> rfl

/-- Index-wise formula of the third component `(im,re,im)`. -/
theorem complex_component_two_data (h r t : EmbTensor) (i j k l : ℕ) :
    (complex_component h r t 2).data i j k l
      = (Finset.range (h.dim / 2)).sum fun dd =>
          h.entry (i % h.batch) j (h.dim / 2 + dd) * r.entry (i % r.batch) k dd
            * t.entry (i % t.batch) l (t.dim / 2 + dd) := by
  cases h <;> cases r <;> cases t <;> rfl

/-- Index-wise formula of the fourth component `(im,im,re)`. -/
theorem complex_component_three_data (h r t : EmbTensor) (i j k l : ℕ) :
    (complex_component h r t 3).data i j k l
      = (Finset.range (h.dim / 2)).sum fun dd =>
          h.entry (i % h.batch) j (h.dim / 2 + dd)
            * r.entry (i % r.batch) k (r.dim / 2 + dd)
            * t.entry (i % t.batch) l dd := by
  cases h <;> cases r <;> cases t <;> rfl

/-- The ComplEx score is the plain sum of the four components. -/
theorem complex_interaction_data (h r t : EmbTensor) (i j k l : ℕ) :
    (complex_interaction h r t).data i j k l
      = (complex_component h r t 0).data i j k l
        + (complex_component h r t 1).data i j k l
        + (complex_component h r t 2).data i j k l
        + (complex_component h r t 3).data i j k l := rfl

/-- C5: on inputs of matching dimensions whose imaginary halves are all
zero, the ComplEx score coincides — in shape and in every in-range
entry — with the DistMult score of the real halves (the three mixed
components vanish, the remaining one is DistMult's contraction). -/
theorem complex_zero_imag_is_distmult (h r t : EmbTensor)
    (hbh : 0 < h.batch) (hbr : 0 < r.batch) (hbt : 0 < t.batch)
    (hdr : r.dim = h.dim) (hdt : t.dim = h.dim)
    (hzh : h.zeroImag) (hzr : r.zeroImag) (hzt : t.zeroImag) :
    ((complex_interaction h r t).b
        = (distmult_interaction h.realHalf r.realHalf t.realHalf).b)
    ∧ ((complex_interaction h r t).nh
        = (distmult_interaction h.realHalf r.realHalf t.realHalf).nh)
    ∧ ((complex_interaction h r t).nr
        = (distmult_interaction h.realHalf r.realHalf t.realHalf).nr)
    ∧ ((complex_interaction h r t).nt
        = (distmult_interaction h.realHalf r.realHalf t.realHalf).nt)
    ∧ (∀ i j k l, j < h.cand → k < r.cand → l < t.cand →
        (complex_interaction h r t).data i j k l
          = (distmult_interaction h.realHalf r.realHalf t.realHalf).data i j k l) := by
  obtain ⟨c1, c2, c3, c4⟩ := complex_interaction_shape h r t
  obtain ⟨d1, d2, d3, d4⟩ :=
    distmult_interaction_shape h.realHalf r.realHalf t.realHalf
  refine ⟨?_, ?_, ?_, ?_, ?_⟩
  · rw [c1, d1, realHalf_batch, realHalf_batch, realHalf_batch]
  · rw [c2, d2, realHalf_cand]
  · rw [c3, d3, realHalf_cand]
  · rw [c4, d4, realHalf_cand]
  · intro i j k l hj hk hl
    rw [complex_interaction_data, complex_component_zero_data,
      complex_component_one_data, complex_component_two_data,
      complex_component_three_data, distmult_interaction_data]
    simp only [realHalf_dim, realHalf_batch, realHalf_entry]
    have s1 : (Finset.range (h.dim / 2)).sum (fun dd =>
        h.entry (i % h.batch) j dd * r.entry (i % r.batch) k (r.dim / 2 + dd)
          * t.entry (i % t.batch) l (t.dim / 2 + dd)) = 0 := by
      refine Finset.sum_eq_zero fun dd hdd => ?_
      rw [Finset.mem_range] at hdd
      rw [hzt _ _ _ (Nat.mod_lt _ hbt) hl (Nat.le_add_right _ _) (by omega)]
      ring
    have s2 : (Finset.range (h.dim / 2)).sum (fun dd =>
        h.entry (i % h.batch) j (h.dim / 2 + dd) * r.entry (i % r.batch) k dd
          * t.entry (i % t.batch) l (t.dim / 2 + dd)) = 0 := by
      refine Finset.sum_eq_zero fun dd hdd => ?_
      rw [Finset.mem_range] at hdd
      rw [hzh _ _ _ (Nat.mod_lt _ hbh) hj (Nat.le_add_right _ _) (by omega)]
      ring
    have s3 : (Finset.range (h.dim / 2)).sum (fun dd =>
        h.entry (i % h.batch) j (h.dim / 2 + dd)
          * r.entry (i % r.batch) k (r.dim / 2 + dd)
          * t.entry (i % t.batch) l dd) = 0 := by
      refine Finset.sum_eq_zero fun dd hdd => ?_
      rw [Finset.mem_range] at hdd
      rw [hzr _ _ _ (Nat.mod_lt _ hbr) hk (Nat.le_add_right _ _) (by omega)]
      ring
    rw [s1, s2, s3]
    ring

/-- Witness for C5: `h = r = t` of shape `(1, 1, 4)` with real halves
`1` and imaginary halves `0`; the ComplEx score equals the DistMult
score of the real halves, namely `2`. -/
theorem complex_zero_imag_is_distmult_witness :
    ((complex_interaction (.rank3 1 1 4 fun _ _ l => if l < 2 then 1 else 0)
        (.rank3 1 1 4 fun _ _ l => if l < 2 then 1 else 0)
        (.rank3 1 1 4 fun _ _ l => if l < 2 then 1 else 0)).data 0 0 0 0
      = (distmult_interaction
          (EmbTensor.realHalf (.rank3 1 1 4 fun _ _ l => if l < 2 then 1 else 0))
          (EmbTensor.realHalf (.rank3 1 1 4 fun _ _ l => if l < 2 then 1 else 0))
          (EmbTensor.realHalf (.rank3 1 1 4 fun _ _ l => if l < 2 then 1 else 0))).data
            0 0 0 0)
    ∧ (complex_interaction (.rank3 1 1 4 fun _ _ l => if l < 2 then 1 else 0)
        (.rank3 1 1 4 fun _ _ l => if l < 2 then 1 else 0)
        (.rank3 1 1 4 fun _ _ l => if l < 2 then 1 else 0)).data 0 0 0 0 = 2 := by
  have hz : EmbTensor.zeroImag (.rank3 1 1 4 fun _ _ l => if l < 2 then (1 : ℚ) else 0) := by
    intro i j l _ _ hl1 hl2
    simp only [EmbTensor.entry, EmbTensor.dim] at hl1 ⊢
    rw [if_neg]
    omega
  have happ := (complex_zero_imag_is_distmult
    (.rank3 1 1 4 fun _ _ l => if l < 2 then 1 else 0)
    (.rank3 1 1 4 fun _ _ l => if l < 2 then 1 else 0)
    (.rank3 1 1 4 fun _ _ l => if l < 2 then 1 else 0)
    (by norm_num [EmbTensor.batch]) (by norm_num [EmbTensor.batch])
    (by norm_num [EmbTensor.batch]) rfl rfl hz hz hz).2.2.2.2
    0 0 0 0 (by norm_num [EmbTensor.cand]) (by norm_num [EmbTensor.cand])
    (by norm_num [EmbTensor.cand])
  refine ⟨happ, ?_⟩
  rw [happ, distmult_interaction_data]
  norm_num [EmbTensor.realHalf, EmbTensor.entry, EmbTensor.dim, EmbTensor.batch,
    Finset.sum_range_succ]

/-- C9 counterexample: with `h = r = t` the all-ones vector of
dimension 2 (real and imaginary halves both `1`), negating the
imaginary half of `t` leaves the fourth component `(im,im,re)`
unchanged at `1` (the claim says it flips), and flips the second
component `(re,im,im)` from `1` to `-1` (the claim says the first two
are unchanged). -/
theorem complex_negImag_tail_counterexample :
    ¬ (((complex_component (.rank2 1 2 fun _ _ => 1) (.rank2 1 2 fun _ _ => 1)
          (EmbTensor.negImag (.rank2 1 2 fun _ _ => 1)) 3).data 0 0 0 0
        = -((complex_component (.rank2 1 2 fun _ _ => 1) (.rank2 1 2 fun _ _ => 1)
          (.rank2 1 2 fun _ _ => 1) 3).data 0 0 0 0))
      ∧ ((complex_component (.rank2 1 2 fun _ _ => 1) (.rank2 1 2 fun _ _ => 1)
          (EmbTensor.negImag (.rank2 1 2 fun _ _ => 1)) 1).data 0 0 0 0
        = (complex_component (.rank2 1 2 fun _ _ => 1) (.rank2 1 2 fun _ _ => 1)
          (.rank2 1 2 fun _ _ => 1) 1).data 0 0 0 0)) := by
  rw [complex_component_three_data, complex_component_three_data,
    complex_component_one_data, complex_component_one_data]
  norm_num [EmbTensor.negImag, EmbTensor.entry, EmbTensor.dim, EmbTensor.batch,
    Finset.sum_range_one]

/-- C9 as amended: on inputs of matching dimensions, negating the
imaginary half of `t` alone flips the sign of exactly the SECOND and
THIRD components (`(re,im,im)` and `(im,re,im)` — the two containing
`Im(t)`), and leaves the first and fourth unchanged. -/
theorem complex_negImag_tail_flips (h r t : EmbTensor)
    (_hdr : r.dim = h.dim) (hdt : t.dim = h.dim) (i j k l : ℕ) :
    ((complex_component h r t.negImag 0).data i j k l
        = (complex_component h r t 0).data i j k l)
    ∧ ((complex_component h r t.negImag 1).data i j k l
        = -((complex_component h r t 1).data i j k l))
    ∧ ((complex_component h r t.negImag 2).data i j k l
        = -((complex_component h r t 2).data i j k l))
    ∧ ((complex_component h r t.negImag 3).data i j k l
        = (complex_component h r t 3).data i j k l) := by
  refine ⟨?_, ?_, ?_, ?_⟩
  · rw [complex_component_zero_data, complex_component_zero_data]
    simp only [negImag_batch, negImag_entry]
    refine Finset.sum_congr rfl fun dd hdd => ?_
    rw [Finset.mem_range] at hdd
    rw [if_neg (by omega)]
  · rw [complex_component_one_data, complex_component_one_data]
    simp only [negImag_batch, negImag_dim, negImag_entry]
    rw [← Finset.sum_neg_distrib]
    refine Finset.sum_congr rfl fun dd hdd => ?_
    rw [if_pos (Nat.le_add_right _ _)]
    ring
  · rw [complex_component_two_data, complex_component_two_data]
    simp only [negImag_batch, negImag_dim, negImag_entry]
    rw [← Finset.sum_neg_distrib]
    refine Finset.sum_congr rfl fun dd hdd => ?_
    rw [if_pos (Nat.le_add_right _ _)]
    ring
  · rw [complex_component_three_data, complex_component_three_data]
    simp only [negImag_batch, negImag_entry]
    refine Finset.sum_congr rfl fun dd hdd => ?_
    rw [Finset.mem_range] at hdd
    rw [if_neg (by omega)]

/-- Witness for the amended C9, at `h = r = t` all-ones of dimension 2. -/
theorem complex_negImag_tail_flips_witness :
    (complex_component (.rank2 1 2 fun _ _ => 1) (.rank2 1 2 fun _ _ => 1)
        (EmbTensor.negImag (.rank2 1 2 fun _ _ => 1)) 1).data 0 0 0 0
      = -((complex_component (.rank2 1 2 fun _ _ => 1) (.rank2 1 2 fun _ _ => 1)
        (.rank2 1 2 fun _ _ => 1) 1).data 0 0 0 0) :=
  (complex_negImag_tail_flips (.rank2 1 2 fun _ _ => 1) (.rank2 1 2 fun _ _ => 1)
    (.rank2 1 2 fun _ _ => 1) rfl rfl 0 0 0 0).2.1

/-- C1: the code and the spec formula disagree.  With
`h = r = (0, 1)` (purely imaginary) and `t = (1, 0)` (purely real),
only the fourth combination `(im,im,re)` is nonzero;
`complex_interaction` as implemented returns `+1` (it sums all four
components positively), while the spec's Hermitian formula with signs
`(+,+,+,-)` gives `-1`. -/
theorem complex_sign_divergence :
    ((complex_interaction (.rank2 1 2 fun _ l => if l = 0 then 0 else 1)
        (.rank2 1 2 fun _ l => if l = 0 then 0 else 1)
        (.rank2 1 2 fun _ l => if l = 0 then 1 else 0)).data 0 0 0 0 = 1)
    ∧ ((complex_interaction_spec (.rank2 1 2 fun _ l => if l = 0 then 0 else 1)
        (.rank2 1 2 fun _ l => if l = 0 then 0 else 1)
        (.rank2 1 2 fun _ l => if l = 0 then 1 else 0)).data 0 0 0 0 = -1) := by
  constructor <;>
    norm_num [complex_interaction, complex_interaction_spec, complex_component,
      Tensor4.add, Tensor4.neg, einsum_bhrt, split_complex,
      _normalize_terms_for_einsum, normalize_for_einsum, EmbTensor.batch,
      Finset.sum_range_one]

/-- Witness for C8: `h` of shape `(1, 2)`, `r` and `t` of shape
`(3, 2)`; the output batch dimension is `3`. -/
theorem distmult_broadcast_head_witness :
    (distmult_interaction (.rank2 1 2 fun _ _ => 1) (.rank2 3 2 fun _ _ => 1)
        (.rank2 3 2 fun _ _ => 1)).b = 3 :=
  (distmult_broadcast_head (.rank2 1 2 fun _ _ => 1) (.rank2 3 2 fun _ _ => 1)
    (.rank2 3 2 fun _ _ => 1) 3 rfl rfl rfl (by norm_num)).1

/-- C4: when the single invocation of the wrapped computation fails
with an exception the classifier recognizes as a known driver fault,
the wrapper raises exactly one higher-level diagnostic `RuntimeError`
(whose message recommends reducing the batch size) with the original
exception attached as its cause, and performs no second invocation;
any failure the classifier does not recognize propagates unchanged. -/
theorem conve_cuda_fault_translation {α : Type} (isC : PyException → Bool)
    (func : ℕ → Except PyException α) (e : PyException)
    (hf : func 0 = .error e) :
    (∀ m c, e = .runtimeError m c → isC e = true →
      add_cuda_warning isC func
        = (.error (.runtimeError cudaWarningMessage (some e)), 1))
    ∧ (isC e = false → add_cuda_warning isC func = (.error e, 1)) := by
  constructor
  · intro m c he hc
    subst he
    simp [add_cuda_warning, hf, hc]
  · intro hc
    cases e <;> simp [add_cuda_warning, hf, hc]

/-- Witness for C4: a recognized driver fault is re-labeled with the
diagnostic message and the original fault as cause, in one attempt. -/
theorem conve_cuda_fault_translation_witness :
    add_cuda_warning (fun _ => true)
      (fun _ => (Except.error
        (PyException.runtimeError "CUDNN_STATUS_INTERNAL_ERROR" none)
        : Except PyException ℕ))
      = (.error (.runtimeError cudaWarningMessage
          (some (.runtimeError "CUDNN_STATUS_INTERNAL_ERROR" none))), 1) :=
  (conve_cuda_fault_translation (fun _ => true)
    (fun _ => (Except.error
      (PyException.runtimeError "CUDNN_STATUS_INTERNAL_ERROR" none)
      : Except PyException ℕ))
    (.runtimeError "CUDNN_STATUS_INTERNAL_ERROR" none) rfl).1
    "CUDNN_STATUS_INTERNAL_ERROR" none rfl rfl

/-- C10: the wrapper catches only `RuntimeError`; an exception of any
other type propagates to the caller completely unchanged after the
single invocation, and the result does not depend on the classifier at
all (it is never consulted), even for classifiers that would match the
message. -/
theorem conve_other_exception_passthrough {α : Type}
    (isC isC2 : PyException → Bool) (func : ℕ → Except PyException α)
    (n m : String) (hf : func 0 = .error (.otherException n m)) :
    add_cuda_warning isC func = (.error (.otherException n m), 1)
    ∧ add_cuda_warning isC func = add_cuda_warning isC2 func := by
  constructor <;> simp [add_cuda_warning, hf]

/-- Witness for C10: a `ValueError` whose message looks exactly like a
driver fault is passed through unchanged, identically under the
all-accepting and the all-rejecting classifier. -/
theorem conve_other_exception_passthrough_witness :
    (add_cuda_warning (fun _ => true)
      (fun _ => (Except.error
        (PyException.otherException "ValueError" "CUDNN_STATUS_INTERNAL_ERROR")
        : Except PyException ℕ))
      = (.error (.otherException "ValueError" "CUDNN_STATUS_INTERNAL_ERROR"), 1))
    ∧ (add_cuda_warning (fun _ => true)
        (fun _ => (Except.error
          (PyException.otherException "ValueError" "CUDNN_STATUS_INTERNAL_ERROR")
          : Except PyException ℕ))
      = add_cuda_warning (fun _ => false)
        (fun _ => (Except.error
          (PyException.otherException "ValueError" "CUDNN_STATUS_INTERNAL_ERROR")
          : Except PyException ℕ))) :=
  conve_other_exception_passthrough (fun _ => true) (fun _ => false)
    (fun _ => (Except.error
      (PyException.otherException "ValueError" "CUDNN_STATUS_INTERNAL_ERROR")
      : Except PyException ℕ))
    "ValueError" "CUDNN_STATUS_INTERNAL_ERROR" rfl

/-- C7: for every choice of inputs and (opaque) sub-layers,
`conve_interaction` returns a tensor of shape
`(batch, num_heads, num_relations, num_tails)`; adding a constant `c`
to every entry of `t_bias` adds exactly `c` to every score entry; and
the bias contribution of each entry is `t_bias` read at
`(batch row of t, tail index)` — constant across the head and relation
candidate axes, i.e. `t_bias` reshaped to
`(t.shape[0], 1, 1, num_tails)` and broadcast. -/
theorem conve_shape_and_bias (h r t : Tensor3) (t_bias : FlatTensor)
    (input_channels embedding_height embedding_width : ℕ)
    (num_in_features embedding_dim : ℕ)
    (bn0 bn1 bn2 : Option (FlatTensor → FlatTensor))
    (inp_drop feature_map_drop hidden_drop : FlatTensor → FlatTensor)
    (conv1 : FlatTensor → FlatTensor)
    (activation : FlatTensor → FlatTensor)
    (fc : FlatTensor → FlatTensor)
    (c : ℚ) (i j k l : ℕ) :
    ((conve_interaction h r t t_bias input_channels embedding_height
        embedding_width num_in_features embedding_dim bn0 bn1 bn2 inp_drop
        feature_map_drop hidden_drop conv1 activation fc).b
      = max (max h.b r.b) t.b)
    ∧ ((conve_interaction h r t t_bias input_channels embedding_height
        embedding_width num_in_features embedding_dim bn0 bn1 bn2 inp_drop
        feature_map_drop hidden_drop conv1 activation fc).nh = h.k)
    ∧ ((conve_interaction h r t t_bias input_channels embedding_height
        embedding_width num_in_features embedding_dim bn0 bn1 bn2 inp_drop
        feature_map_drop hidden_drop conv1 activation fc).nr = r.k)
    ∧ ((conve_interaction h r t t_bias input_channels embedding_height
        embedding_width num_in_features embedding_dim bn0 bn1 bn2 inp_drop
        feature_map_drop hidden_drop conv1 activation fc).nt = t.k)
    ∧ ((conve_interaction h r t ⟨t_bias.shape, fun nn => t_bias.data nn + c⟩
        input_channels embedding_height embedding_width num_in_features
        embedding_dim bn0 bn1 bn2 inp_drop feature_map_drop hidden_drop conv1
        activation fc).data i j k l
      = (conve_interaction h r t t_bias input_channels embedding_height
          embedding_width num_in_features embedding_dim bn0 bn1 bn2 inp_drop
          feature_map_drop hidden_drop conv1 activation fc).data i j k l + c)
    ∧ ((conve_interaction h r t t_bias input_channels embedding_height
        embedding_width num_in_features embedding_dim bn0 bn1 bn2 inp_drop
        feature_map_drop hidden_drop conv1 activation fc).data i j k l
      = (conve_interaction h r t ⟨t_bias.shape, fun _ => 0⟩ input_channels
          embedding_height embedding_width num_in_features embedding_dim bn0
          bn1 bn2 inp_drop feature_map_drop hidden_drop conv1 activation
          fc).data i j k l
        + t_bias.data ((i % t.b) * t.k + l)) := by
  refine ⟨rfl, rfl, rfl, rfl, ?_, ?_⟩ <;>
    · simp only [conve_interaction]
      ring

end PyKEEN
